import Mathlib

/-!
Verification of the JSON extraction-validate-retry loop of this repository
(`src/json_runner.py`, `src/schemas.py`, with `src/llm_client.py` treated as
the opaque completion-service boundary).

Text is modelled as `List Char`.  The external libraries used by the source
(the `json` parser, the `pydantic` validation engine, the `re` regular
expression search) are embedded as executable Lean functions that follow the
behaviour of the source's calls into them; the repository's own functions
`_extract_json` and `ask_llm_for_json` are translated statement by statement.
-/

set_option maxRecDepth 10000

/-- The backtick character, written via its code point. -/
def btick : Char := Char.ofNat 96

/-- Whitespace as stripped by Python `str.strip()` and skipped by the `\s`
class of the fence regular expressions (ASCII range). -/
def pyWS (c : Char) : Bool :=
  c = ' ' || c = '\t' || c = '\n' || c = '\r' || c = Char.ofNat 11 || c = Char.ofNat 12

/-- Python `text.strip()`: drop leading and trailing whitespace. -/
def strip (l : List Char) : List Char :=
  ((l.dropWhile pyWS).reverse.dropWhile pyWS).reverse

/-- Boolean list-prefix test (mirrors the character-by-character comparison
performed by substring search). -/
def pfxOf : List Char → List Char → Bool
  | [], _ => true
  | _ :: _, [] => false
  | a :: as, b :: bs => a = b && pfxOf as bs

/-- Find the first occurrence of `pat`: returns the part before the
occurrence and the part after it.  `none` when `pat` does not occur.  This is
the search step underlying both Python's `in` operator and `re.search` on the
literal fence patterns. -/
def splitOnFirst (pat : List Char) : List Char → Option (List Char × List Char)
  | [] => if pfxOf pat [] then some ([], []) else none
  | c :: t =>
    if pfxOf pat (c :: t) then some ([], (c :: t).drop pat.length)
    else (splitOnFirst pat t).map (fun pr => (c :: pr.1, pr.2))

/-- The generic fence marker three backticks. -/
def fence : List Char := [btick, btick, btick]

/-- The tagged fence marker, three backticks followed by `json`. -/
def fenceJson : List Char := fence ++ ['j', 's', 'o', 'n']

/-- Search for `re.search(r"(3 backticks)json\s*([\s\S]*?)\s*(3 backticks)", text)`
followed by `.group(1).strip()`: scan left to right for an occurrence of the
tagged fence that is followed by a closing fence; the lazy inner group makes
the closing fence the first one after the opening, and the strip absorbs the
surrounding `\s*`. -/
def matchTagged : List Char → Option (List Char)
  | [] => none
  | c :: t =>
    if pfxOf fenceJson (c :: t) then
      match splitOnFirst fence ((c :: t).drop 7) with
      | some (body, _) => some (strip body)
      | none => matchTagged t
    else matchTagged t

/-- Search for `re.search(r"(3 backticks)\s*([\s\S]*?)\s*(3 backticks)", text)`
followed by `.group(1).strip()`. -/
def matchPlain : List Char → Option (List Char)
  | [] => none
  | c :: t =>
    if pfxOf fence (c :: t) then
      match splitOnFirst fence ((c :: t).drop 3) with
      | some (body, _) => some (strip body)
      | none => matchPlain t
    else matchPlain t

/-- `_extract_json` of `src/json_runner.py`: strip the text; if it contains a
closed json-tagged fenced block return that block's trimmed interior; else if
it contains a closed plain fenced block return that block's trimmed interior;
else return the stripped text.  (When the `in` test succeeds but the search
finds no closed block, the source falls through to the next case, which the
`none` branches of the two searches reproduce.) -/
def extract_json (text : List Char) : List Char :=
  match matchTagged (strip text) with
  | some r => r
  | none =>
    match matchPlain (strip text) with
    | some r => r
    | none => strip text

example : extract_json "hello".data = "hello".data := by decide
example : extract_json "  hi  ".data = "hi".data := by decide
example : extract_json ("```json\n x \n```").data = "x".data := by decide
example : extract_json ("``` y ```").data = "y".data := by decide
example : extract_json ("``` p ``` ```json q ```").data = "q".data := by decide
example : extract_json ("``` only open").data = ("``` only open").data := by decide

/-! ## The generic parsed tree and the structural parser

`json.loads` is an external collaborator of the source (the Python `json`
standard library).  It is embedded here as an executable recursive-descent
parser of RFC 8259 JSON producing a generic tree, with duplicate object keys
kept in order (Python's dict construction keeps the last one, which the
lookup below reproduces).  Parse failures return an error description; the
exact diagnostic wording of CPython is not reproduced, only the fact that a
description is produced. -/

inductive Json where
  | jnull : Json
  | jbool (b : Bool) : Json
  | jnum (lexeme : List Char) : Json
  | jstr (s : List Char) : Json
  | jarr (elems : List Json) : Json
  | jobj (fields : List (List Char × Json)) : Json

/-- JSON insignificant whitespace (space, tab, newline, carriage return). -/
def jsonWS (c : Char) : Bool :=
  c = ' ' || c = '\t' || c = '\n' || c = '\r'

def skipWS (l : List Char) : List Char := l.dropWhile jsonWS

def isDigit (c : Char) : Bool := '0' ≤ c && c ≤ '9'

def hexVal (c : Char) : Option Nat :=
  let n := c.toNat
  if 48 ≤ n && n ≤ 57 then some (n - 48)
  else if 97 ≤ n && n ≤ 102 then some (n - 87)
  else if 65 ≤ n && n ≤ 70 then some (n - 55)
  else none

/-- Parse the body of a JSON string after the opening quote, handling the
escape sequences of the grammar; returns the decoded content and the rest of
the input after the closing quote. -/
def parseStringBody : Nat → List Char → Except (List Char) (List Char × List Char)
  | 0, _ => .error "Unterminated string".data
  | _ + 1, [] => .error "Unterminated string".data
  | fuel + 1, c :: t =>
    if c = '"' then .ok ([], t)
    else if c = '\\' then
      match t with
      | [] => .error "Unterminated string".data
      | e :: t2 =>
        let cont (d : Char) (rest : List Char) :
            Except (List Char) (List Char × List Char) :=
          match parseStringBody fuel rest with
          | .ok (s, r) => .ok (d :: s, r)
          | .error m => .error m
        if e = '"' then cont '"' t2
        else if e = '\\' then cont '\\' t2
        else if e = '/' then cont '/' t2
        else if e = 'b' then cont (Char.ofNat 8) t2
        else if e = 'f' then cont (Char.ofNat 12) t2
        else if e = 'n' then cont '\n' t2
        else if e = 'r' then cont '\r' t2
        else if e = 't' then cont '\t' t2
        else if e = 'u' then
          match t2 with
          | h1 :: h2 :: h3 :: h4 :: t3 =>
            match hexVal h1, hexVal h2, hexVal h3, hexVal h4 with
            | some a, some b, some c3, some d =>
              cont (Char.ofNat (((a * 16 + b) * 16 + c3) * 16 + d)) t3
            | _, _, _, _ => .error "Invalid hex escape".data
          | _ => .error "Invalid hex escape".data
        else .error "Invalid escape".data
    else if c.toNat < 32 then .error "Invalid control character".data
    else
      match parseStringBody fuel t with
      | .ok (s, r) => .ok (c :: s, r)
      | .error m => .error m

/-- Lex a JSON number (sign, integer part without leading zeros, optional
fraction, optional exponent); returns the lexeme and the rest. -/
def lexNumber (l : List Char) : Except (List Char) (List Char × List Char) :=
  let (sgn, l1) : List Char × List Char :=
    match l with
    | '-' :: t => (['-'], t)
    | _ => ([], l)
  match l1 with
  | [] => .error "Expecting value".data
  | d :: _ =>
    if isDigit d then
      let intPart : List Char × List Char :=
        if d = '0' then (['0'], l1.tail)
        else (l1.takeWhile isDigit, l1.dropWhile isDigit)
      let (ip, l2) := intPart
      let (fp, l3) : List Char × List Char :=
        match l2 with
        | '.' :: t =>
          let ds := t.takeWhile isDigit
          if ds = [] then ([], l2) else ('.' :: ds, t.dropWhile isDigit)
        | _ => ([], l2)
      let (ep, l4) : List Char × List Char :=
        match l3 with
        | e :: t =>
          if e = 'e' || e = 'E' then
            let (es, t1) : List Char × List Char :=
              match t with
              | '+' :: t2 => (['+'], t2)
              | '-' :: t2 => (['-'], t2)
              | _ => ([], t)
            let ds := t1.takeWhile isDigit
            if ds = [] then ([], l3) else (e :: (es ++ ds), t1.dropWhile isDigit)
          else ([], l3)
        | _ => ([], l3)
      .ok (sgn ++ ip ++ fp ++ ep, l4)
    else .error "Expecting value".data

/-- Parser state: a value, an object after its opening brace, the members of
an object after a key has been read, an array after its opening bracket, or
the elements of a nonempty array. -/
inductive PMode where
  | value : PMode
  | obj : PMode
  | members (k : List Char) : PMode
  | arr : PMode
  | elems : PMode

/-- The recursive-descent parse function, structurally recursive on a fuel
bound so that it evaluates inside the kernel; the fuel supplied by
`jsonLoads` exceeds any possible recursion depth, every recursive call
consuming at least one input character. -/
def parseF : Nat → PMode → List Char → Except (List Char) (Json × List Char)
  | 0, _, _ => .error "Expecting value".data
  | fuel + 1, .value, l =>
    (match skipWS l with
     | [] => .error "Expecting value".data
     | c :: t =>
       if c = Char.ofNat 123 then parseF fuel .obj t
       else if c = '[' then parseF fuel .arr t
       else if c = '"' then
         match parseStringBody fuel t with
         | .ok (s, r) => .ok (.jstr s, r)
         | .error m => .error m
       else if c = 't' then
         match t with
         | 'r' :: 'u' :: 'e' :: r => .ok (.jbool true, r)
         | _ => .error "Expecting value".data
       else if c = 'f' then
         match t with
         | 'a' :: 'l' :: 's' :: 'e' :: r => .ok (.jbool false, r)
         | _ => .error "Expecting value".data
       else if c = 'n' then
         match t with
         | 'u' :: 'l' :: 'l' :: r => .ok (.jnull, r)
         | _ => .error "Expecting value".data
       else if c = '-' || isDigit c then
         match lexNumber (c :: t) with
         | .ok (lx, r) => .ok (.jnum lx, r)
         | .error m => .error m
       else .error "Expecting value".data)
  | fuel + 1, .obj, l =>
    (match skipWS l with
     | [] => .error "Expecting property name".data
     | c :: t =>
       if c = Char.ofNat 125 then .ok (.jobj [], t)
       else if c = '"' then
         match parseStringBody fuel t with
         | .error m => .error m
         | .ok (k, r1) => parseF fuel (.members k) r1
       else .error "Expecting property name".data)
  | fuel + 1, .members k, l =>
    (match skipWS l with
     | ':' :: r =>
       (match parseF fuel .value r with
        | .error m => .error m
        | .ok (v, r2) =>
          match skipWS r2 with
          | ',' :: r3 =>
            (match skipWS r3 with
             | '"' :: r4 =>
               (match parseStringBody fuel r4 with
                | .error m => .error m
                | .ok (k2, r5) =>
                  match parseF fuel (.members k2) r5 with
                  | .error m => .error m
                  | .ok (.jobj fs, r6) => .ok (.jobj ((k, v) :: fs), r6)
                  | .ok (_, _) => .error "Expecting property name".data)
             | _ => .error "Expecting property name".data)
          | c :: r3 =>
            if c = Char.ofNat 125 then .ok (.jobj [(k, v)], r3)
            else .error "Expecting comma delimiter".data
          | [] => .error "Expecting comma delimiter".data)
     | _ => .error "Expecting colon delimiter".data)
  | fuel + 1, .arr, l =>
    (match skipWS l with
     | ']' :: r => .ok (.jarr [], r)
     | _ => parseF fuel .elems l)
  | fuel + 1, .elems, l =>
    (match parseF fuel .value l with
     | .error m => .error m
     | .ok (v, r) =>
       match skipWS r with
       | ',' :: r2 =>
         (match parseF fuel .elems r2 with
          | .error m => .error m
          | .ok (.jarr es, r3) => .ok (.jarr (v :: es), r3)
          | .ok (_, _) => .error "Expecting value".data)
       | ']' :: r2 => .ok (.jarr [v], r2)
       | _ => .error "Expecting comma delimiter".data)

/-- `json.loads`: parse a complete JSON document, rejecting trailing
content. -/
def jsonLoads (l : List Char) : Except (List Char) Json :=
  match parseF (4 * l.length + 8) .value l with
  | .error m => .error m
  | .ok (v, rest) =>
    if skipWS rest = [] then .ok v else .error "Extra data".data

example : jsonLoads "\x7b\"answer\": \"hi\"\x7d".data
    = .ok (.jobj [("answer".data, .jstr "hi".data)]) := rfl
example : jsonLoads " [true, null, \"a\"] ".data
    = .ok (.jarr [.jbool true, .jnull, .jstr "a".data]) := rfl
example : jsonLoads "x".data = .error "Expecting value".data := rfl
example : (jsonLoads "\x7b\"a\": 1".data).isOk = false := by decide
example : jsonLoads "\x7b\"c\": [\x7b\"q\": \"z\"\x7d]\x7d".data
    = .ok (.jobj [("c".data, .jarr [.jobj [("q".data, .jstr "z".data)]])]) := rfl

/-! ## The schemas of `src/schemas.py` and their validation

`Citation` has required string fields `source_id` and `quote`; `QAResponse`
has a required string field `answer` and a `citations` list defaulting to the
empty list.  The validation engine (`pydantic`'s `model_validate`, an
external collaborator) is embedded per the spec's schema boundary: it checks
required-field presence and type/shape conformance against a generic parsed
tree and produces field-level diagnostics naming the offending field. -/

structure Citation where
  source_id : List Char
  quote : List Char
deriving DecidableEq

structure QAResponse where
  answer : List Char
  citations : List Citation
deriving DecidableEq

/-- Python dict lookup on the parsed member list: later duplicate keys
overwrite earlier ones, so the last binding wins. -/
def lookupLast (k : List Char) : List (List Char × Json) → Option Json
  | [] => none
  | (k1, v) :: rest =>
    match lookupLast k rest with
    | some r => some r
    | none => if k1 = k then some v else none

def keyAnswer : List Char := "answer".data
def keyCitations : List Char := "citations".data
def keySourceId : List Char := "source_id".data
def keyQuote : List Char := "quote".data

/-- Validate one element of the `citations` list against `Citation`. -/
def validateCitation (j : Json) : Except (List Char) Citation :=
  match j with
  | .jobj fs =>
    let sidR : Except (List Char) (List Char) :=
      match lookupLast keySourceId fs with
      | none => .error ("citations.source_id: Field required".data)
      | some (.jstr s) => .ok s
      | some _ => .error ("citations.source_id: Input should be a valid string".data)
    let qR : Except (List Char) (List Char) :=
      match lookupLast keyQuote fs with
      | none => .error ("citations.quote: Field required".data)
      | some (.jstr s) => .ok s
      | some _ => .error ("citations.quote: Input should be a valid string".data)
    match sidR, qR with
    | .ok s, .ok q => .ok ⟨s, q⟩
    | .error e, .ok _ => .error e
    | .ok _, .error e => .error e
    | .error e1, .error e2 => .error (e1 ++ "; ".data ++ e2)
  | _ => .error ("citations: Input should be a valid dictionary".data)

/-- Validate the `citations` value: it must be a list whose members all
validate as `Citation`. -/
def validateCitationList (j : Json) : Except (List Char) (List Citation) :=
  match j with
  | .jarr es =>
    es.foldr
      (fun e acc =>
        match validateCitation e, acc with
        | .ok c, .ok cs => .ok (c :: cs)
        | .error m, .ok _ => .error m
        | .ok _, .error m => .error m
        | .error m1, .error m2 => .error (m1 ++ "; ".data ++ m2))
      (.ok [])
  | _ => .error ("citations: Input should be a valid list".data)

/-- `QAResponse.model_validate` on a generic parsed tree: the input must be a
dictionary; `answer` is a required string; `citations` defaults to the empty
list when absent and must otherwise be a list of valid citations.
Diagnostics of the failing fields are combined into one description. -/
def validateQAResponse (j : Json) : Except (List Char) QAResponse :=
  match j with
  | .jobj fs =>
    let aR : Except (List Char) (List Char) :=
      match lookupLast keyAnswer fs with
      | none => .error (keyAnswer ++ ": Field required".data)
      | some (.jstr s) => .ok s
      | some _ => .error (keyAnswer ++ ": Input should be a valid string".data)
    let cR : Except (List Char) (List Citation) :=
      match lookupLast keyCitations fs with
      | none => .ok []
      | some v => validateCitationList v
    match aR, cR with
    | .ok a, .ok cs => .ok ⟨a, cs⟩
    | .error e, .ok _ => .error e
    | .ok _, .error e => .error e
    | .error e1, .error e2 => .error (e1 ++ "; ".data ++ e2)
  | _ => .error ("Input should be a valid dictionary".data)

example : validateQAResponse (.jobj [("answer".data, .jstr "ok".data)])
    = .ok ⟨"ok".data, []⟩ := rfl
example :
    validateQAResponse (.jobj [("answer".data, .jstr "a".data),
      ("citations".data,
        .jarr [.jobj [("source_id".data, .jstr "d1".data),
                      ("quote".data, .jstr "q1".data)]])])
    = .ok ⟨"a".data, [⟨"d1".data, "q1".data⟩]⟩ := rfl

/-! ## The validating retry loop of `src/json_runner.py`

The completion service (`call_llm` of `src/llm_client.py`, which forwards to
`ollama.chat`) is the single point of I/O: one call per attempt, taking the
current working prompt and either returning response text or raising a
service fault.  It is modelled as an oracle indexed by the attempt number,
covering every possible response sequence. -/

/-- One completion-service response: text, or a fault raised by the call
itself (network, timeout, auth and so on, identified by an opaque code). -/
inductive LLMResp where
  | ok (text : List Char) : LLMResp
  | fault (code : Nat) : LLMResp

/-- Outcome of `ask_llm_for_json`: a validated value returned, a `ValueError`
raised on exhaustion, a propagated service fault, or the implicit `None`
Python returns when the `for` loop body never runs. -/
inductive Outcome (α : Type) where
  | value (v : α) : Outcome α
  | failure (msg : List Char) : Outcome α
  | svcFault (code : Nat) : Outcome α
  | retNone : Outcome α
deriving DecidableEq

/-- The body of the `try` block: `json.loads` on the extracted text then
`schema_cls.model_validate`, with the two `except` arms prefixing the
diagnostics exactly as the source's f-strings do. -/
def decodeValidate {α : Type} (validate : Json → Except (List Char) α)
    (json_str : List Char) : Except (List Char) α :=
  match jsonLoads json_str with
  | .error e => .error ("JSON decode error: ".data ++ e)
  | .ok data =>
    match validate data with
    | .ok v => .ok v
    | .error e => .error ("Schema validation error: ".data ++ e)

/-- The f-string that builds the next working prompt from the current one
(note: from the current, not the original), verbatim from the source
including the indentation of the triple-quoted literal. -/
def correctivePrompt (current_prompt last_error : List Char) : List Char :=
  current_prompt
    ++ "\n            ---\n            Your previous response was invalid:\n            ".data
    ++ last_error
    ++ "\n\n            Please fix the JSON and return ONLY valid JSON matching the schema. No other text.\n            ".data

/-- Decimal rendering of a Python integer, as interpolated by an f-string. -/
def intChars (n : Int) : List Char :=
  if n < 0 then '-' :: Nat.toDigits 10 (-n).toNat else Nat.toDigits 10 n.toNat

/-- The `ValueError` message raised on exhaustion, verbatim from the source
f-string. -/
def failMsg (max_retries : Int) (last_error : List Char) : List Char :=
  "Failed after ".data ++ intChars max_retries
    ++ " attempts. Last error: ".data ++ last_error

/-- The body of `for attempt in range(max_retries)`, iterating over the list
of attempt indices.  Besides the outcome it returns the trace of prompts sent
to the completion service, one per call, so that call counts and prompt
contents can be stated.  An empty index list reproduces Python falling off
the loop and returning `None`. -/
def runAttempts {α : Type} (svc : Nat → LLMResp)
    (validate : Json → Except (List Char) α) (max_retries : Int) :
    List Nat → List Char → Outcome α × List (List Char)
  | [], _ => (.retNone, [])
  | attempt :: rest, current_prompt =>
    match svc attempt with
    | .fault code => (.svcFault code, [current_prompt])
    | .ok raw =>
      match decodeValidate validate (extract_json raw) with
      | .ok v => (.value v, [current_prompt])
      | .error last_error =>
        if (attempt : Int) < max_retries - 1 then
          let r := runAttempts svc validate max_retries rest
            (correctivePrompt current_prompt last_error)
          (r.1, current_prompt :: r.2)
        else
          (.failure (failMsg max_retries last_error), [current_prompt])

/-- The module-level default `MAX_RETRIES = 3`. -/
def MAX_RETRIES : Int := 3

/-- `ask_llm_for_json` of `src/json_runner.py`: run the retry loop over the
attempt indices `range(max_retries)` starting from the caller's prompt. -/
def ask_llm_for_json {α : Type} (svc : Nat → LLMResp)
    (validate : Json → Except (List Char) α) (prompt : List Char)
    (max_retries : Int) : Outcome α × List (List Char) :=
  runAttempts svc validate max_retries (List.range max_retries.toNat) prompt

/-- Number of positions at which `pat` occurs in a character list. -/
def countOccur (pat : List Char) : List Char → Nat
  | [] => 0
  | c :: t => (if pfxOf pat (c :: t) then 1 else 0) + countOccur pat t

/-- Substring test. -/
def containsSub (pat l : List Char) : Bool := (splitOnFirst pat l).isSome

example :
    (ask_llm_for_json (fun _ => .ok "\x7b\"answer\": \"hi\"\x7d".data)
      validateQAResponse "P".data MAX_RETRIES)
    = (.value ⟨"hi".data, []⟩, ["P".data]) := by decide
example :
    ((ask_llm_for_json (fun _ => .ok "x".data)
      validateQAResponse "P".data MAX_RETRIES).2).length = 3 := by decide
example :
    (ask_llm_for_json (fun _ => .ok "x".data)
      validateQAResponse "P".data 0)
    = (.retNone, []) := by decide

/-! ## Lemmas about the substring search -/

theorem pfxOf_decomp {p l : List Char} (h : pfxOf p l = true) :
    l = p ++ l.drop p.length := by
  induction p generalizing l with
  | nil => simp
  | cons a as ih =>
    cases l with
    | nil => simp [pfxOf] at h
    | cons b bs =>
      simp only [pfxOf, Bool.and_eq_true, decide_eq_true_eq] at h
      obtain ⟨rfl, h2⟩ := h
      simpa using ih h2

theorem pfxOf_app_self (p r : List Char) : pfxOf p (p ++ r) = true := by
  induction p with
  | nil => simp [pfxOf]
  | cons a as ih => simp [pfxOf, ih]

theorem pfxOf_extend {p l : List Char} (r : List Char) (h : pfxOf p l = true) :
    pfxOf p (l ++ r) = true := by
  induction p generalizing l with
  | nil => simp [pfxOf]
  | cons a as ih =>
    cases l with
    | nil => simp [pfxOf] at h
    | cons b bs =>
      simp only [pfxOf, Bool.and_eq_true, decide_eq_true_eq] at h ⊢
      exact ⟨h.1, ih h.2⟩

theorem pfxOf_of_append_left {a b l : List Char}
    (h : pfxOf (a ++ b) l = true) : pfxOf a l = true := by
  induction a generalizing l with
  | nil => simp [pfxOf]
  | cons x xs ih =>
    cases l with
    | nil => simp [pfxOf] at h
    | cons y ys =>
      simp only [List.cons_append, pfxOf, Bool.and_eq_true, decide_eq_true_eq] at h ⊢
      exact ⟨h.1, ih h.2⟩

theorem pfxOf_append_cases {p l r : List Char}
    (h : pfxOf p (l ++ r) = true) :
    pfxOf p l = true ∨ (pfxOf l p = true ∧ pfxOf (p.drop l.length) r = true) := by
  induction l generalizing p with
  | nil => exact Or.inr ⟨rfl, by simpa using h⟩
  | cons a as ih =>
    cases p with
    | nil => exact Or.inl rfl
    | cons b bs =>
      simp only [List.cons_append, pfxOf, Bool.and_eq_true, decide_eq_true_eq] at h
      obtain ⟨rfl, h2⟩ := h
      rcases ih h2 with h3 | ⟨h3, h4⟩
      · exact Or.inl (by simp [pfxOf, h3])
      · exact Or.inr ⟨by simp [pfxOf, h3], by simpa using h4⟩

theorem sof_decomp {pat l b a : List Char}
    (h : splitOnFirst pat l = some (b, a)) : l = b ++ pat ++ a := by
  induction l generalizing b with
  | nil =>
    simp only [splitOnFirst] at h
    split at h
    · rename_i hp
      cases pat with
      | nil => simp_all
      | cons x xs => simp [pfxOf] at hp
    · exact absurd h (by simp)
  | cons c t ih =>
    simp only [splitOnFirst] at h
    split at h
    · rename_i hp
      obtain ⟨rfl, rfl⟩ : b = [] ∧ a = (c :: t).drop pat.length := by
        constructor <;> cases h <;> rfl
      simpa using pfxOf_decomp hp
    · rcases Option.map_eq_some'.mp h with ⟨⟨b1, a1⟩, hrec, heq⟩
      obtain ⟨rfl, rfl⟩ : b = c :: b1 ∧ a = a1 := by
        constructor <;> cases heq <;> rfl
      simpa using ih hrec

theorem sof_of_decomp (pat x y : List Char) :
    (splitOnFirst pat (x ++ pat ++ y)).isSome = true := by
  induction x with
  | nil =>
    simp only [List.nil_append]
    have hp : pfxOf pat (pat ++ y) = true := pfxOf_app_self pat y
    cases hpy : pat ++ y with
    | nil =>
      rw [hpy] at hp
      simp [splitOnFirst, hp]
    | cons c t =>
      rw [hpy] at hp
      simp [splitOnFirst, hp]
  | cons c t ih =>
    rw [List.cons_append, List.cons_append]
    simp only [splitOnFirst]
    split
    · simp
    · simpa using ih

theorem sof_none_pfx {pat l : List Char}
    (h : splitOnFirst pat l = none) : pfxOf pat l = false := by
  cases l with
  | nil =>
    simp only [splitOnFirst] at h
    by_contra hc
    simp [Bool.not_eq_false] at hc
    simp [hc] at h
  | cons c t =>
    simp only [splitOnFirst] at h
    by_contra hc
    simp [Bool.not_eq_false] at hc
    simp [hc] at h

theorem sof_none_tail {pat c} {t : List Char}
    (h : splitOnFirst pat (c :: t) = none) : splitOnFirst pat t = none := by
  simp only [splitOnFirst] at h
  split at h
  · exact absurd h (by simp)
  · simpa using h

theorem sof_before_none {pat l b a : List Char} (hpat : pat ≠ [])
    (h : splitOnFirst pat l = some (b, a)) : splitOnFirst pat b = none := by
  induction l generalizing b with
  | nil =>
    simp only [splitOnFirst] at h
    split at h
    · rename_i hp
      cases pat with
      | nil => exact absurd rfl hpat
      | cons x xs => simp [pfxOf] at hp
    · exact absurd h (by simp)
  | cons c t ih =>
    simp only [splitOnFirst] at h
    split at h
    · rename_i hp
      have : b = [] := by cases h; rfl
      subst this
      cases pat with
      | nil => exact absurd rfl hpat
      | cons x xs => simp [splitOnFirst, pfxOf]
    · rename_i hp
      cases hm : splitOnFirst pat t with
      | none => rw [hm] at h; simp at h
      | some pr =>
        obtain ⟨b1, a1⟩ := pr
        rw [hm] at h
        simp only [Option.map_some'] at h
        injection h with h2
        injection h2 with hb ha
        subst hb
        subst ha
        have hb1 := ih hm
        simp only [splitOnFirst]
        have hcp : pfxOf pat (c :: b1) = false := by
          by_contra hcc
          simp only [Bool.not_eq_false] at hcc
          have hdt := sof_decomp hm
          have h2 : pfxOf pat (c :: t) = true := by
            have ht : c :: t = (c :: b1) ++ (pat ++ a1) := by
              rw [hdt]; simp
            rw [ht]
            exact pfxOf_extend _ hcc
          simp [h2] at hp
        simp [hcp, hb1]

theorem sof_none_of_infix {pat l u v w : List Char}
    (h : splitOnFirst pat l = none) (hd : l = u ++ v ++ w) :
    splitOnFirst pat v = none := by
  by_contra hc
  rcases Option.ne_none_iff_exists'.mp hc with ⟨⟨b, a⟩, hsome⟩
  have hv := sof_decomp hsome
  have hl : l = (u ++ b) ++ pat ++ (a ++ w) := by
    rw [hd, hv]; simp
  have hs := sof_of_decomp pat (u ++ b) (a ++ w)
  rw [← hl, h] at hs
  simp at hs

/-! ## Fence-specific search lemmas -/

theorem fence_ne_nil : fence ≠ [] := by decide

theorem pfx_fence_elim {l : List Char} (h : pfxOf fence l = true) :
    ∃ t, l = btick :: btick :: btick :: t := by
  have hd := pfxOf_decomp h
  exact ⟨l.drop fence.length, hd⟩

theorem sof_fence_cons_none {c : Char} {l : List Char} (hc : c ≠ btick)
    (h : splitOnFirst fence l = none) :
    splitOnFirst fence (c :: l) = none := by
  simp only [splitOnFirst]
  have hp : pfxOf fence (c :: l) = false := by
    by_contra hcc
    simp only [Bool.not_eq_false] at hcc
    rcases pfx_fence_elim hcc with ⟨t, ht⟩
    exact hc (by injection ht)
  simp [hp, h]

theorem sof_fence_app_none {c : Char} {l : List Char} (hc : c ≠ btick)
    (h : splitOnFirst fence l = none) :
    splitOnFirst fence (l ++ [c]) = none := by
  induction l with
  | nil =>
    simp only [List.nil_append]
    have hp : pfxOf fence [c] = false := by
      by_contra hcc
      simp only [Bool.not_eq_false] at hcc
      rcases pfx_fence_elim hcc with ⟨t, ht⟩
      simp at ht
    have h0 : pfxOf fence [] = false := by decide
    simp [splitOnFirst, hp, h0]
  | cons a t ih =>
    have ht : splitOnFirst fence t = none := sof_none_tail h
    have hat : pfxOf fence (a :: t) = false := sof_none_pfx h
    simp only [List.cons_append, splitOnFirst]
    have hp : pfxOf fence (a :: (t ++ [c])) = false := by
      by_contra hcc
      simp only [Bool.not_eq_false] at hcc
      rcases pfx_fence_elim hcc with ⟨s, hs⟩
      cases t with
      | nil =>
        simp only [List.nil_append] at hs
        injection hs with h1 h2
        injection h2 with h3 h4
        simp at h4
      | cons b1 t1 =>
        cases t1 with
        | nil =>
          simp only [List.cons_append, List.nil_append] at hs
          injection hs with h1 h2
          injection h2 with h3 h4
          injection h4 with h5 h6
          exact hc h5
        | cons b2 t2 =>
          simp only [List.cons_append] at hs
          injection hs with h1 h2
          injection h2 with h3 h4
          injection h4 with h5 h6
          subst h1; subst h3; subst h5
          have : pfxOf fence (btick :: btick :: btick :: t2) = true := by
            simp [fence, pfxOf]
          simp [this] at hat
    simp [hp]
    exact ih ht

theorem fence_close {m rest : List Char}
    (h1 : splitOnFirst fence m = none)
    (h2 : m.getLast? ≠ some btick) :
    splitOnFirst fence (m ++ fence ++ rest) = some (m, rest) := by
  induction m with
  | nil =>
    simp only [List.nil_append]
    have hp : pfxOf fence (fence ++ rest) = true := pfxOf_app_self fence rest
    cases hfr : fence ++ rest with
    | nil => simp [fence] at hfr
    | cons c t =>
      rw [hfr] at hp
      simp only [splitOnFirst, hp, if_true]
      have : (c :: t).drop fence.length = rest := by
        rw [← hfr]
        exact List.drop_left fence rest
      simp [this]
  | cons c t ih =>
    have hct : splitOnFirst fence t = none := sof_none_tail h1
    simp only [List.cons_append, splitOnFirst]
    have hp : pfxOf fence (c :: (t ++ fence ++ rest)) = false := by
      by_contra hcc
      simp only [Bool.not_eq_false] at hcc
      rcases pfx_fence_elim hcc with ⟨s, hs⟩
      cases t with
      | nil =>
        injection hs with hA hB
        subst hA
        exact h2 (by simp)
      | cons b1 t1 =>
        cases t1 with
        | nil =>
          simp only [List.cons_append, List.nil_append] at hs
          injection hs with hA hB
          injection hB with hC hD
          subst hC
          exact h2 (by simp)
        | cons b2 t2 =>
          simp only [List.cons_append] at hs
          injection hs with hA hB
          injection hB with hC hD
          injection hD with hE hF
          subst hA; subst hC; subst hE
          have hpm : pfxOf fence (btick :: btick :: btick :: t2) = true := by
            simp [fence, pfxOf]
          have := sof_none_pfx h1
          simp [hpm] at this
    have hlast : t.getLast? ≠ some btick := by
      cases t with
      | nil => simp
      | cons b1 t1 =>
        intro hgl
        apply h2
        rw [List.getLast?_cons_cons]
        exact hgl
    have h3 := ih hct hlast
    simp only [List.append_assoc] at h3 hp ⊢
    simp [hp, h3]

theorem sof_fenceJson_none {l : List Char}
    (h : splitOnFirst fence l = none) :
    splitOnFirst fenceJson l = none := by
  induction l with
  | nil => simp [splitOnFirst, fenceJson, fence, pfxOf]
  | cons c t ih =>
    have ht := ih (sof_none_tail h)
    simp only [splitOnFirst]
    have hp : pfxOf fenceJson (c :: t) = false := by
      by_contra hcc
      simp only [Bool.not_eq_false] at hcc
      have := pfxOf_of_append_left (a := fence) (b := ['j', 's', 'o', 'n'])
        (by simpa [fenceJson] using hcc)
      have hnp := sof_none_pfx h
      simp [this] at hnp
    simp [hp, ht]

/-! ## Lemmas about strip -/

theorem dropWhile_head_false {p : Char → Bool} {l : List Char} {c : Char}
    {t : List Char} (h : l.dropWhile p = c :: t) : p c = false := by
  induction l with
  | nil => simp at h
  | cons a as ih =>
    rw [List.dropWhile_cons] at h
    split at h
    · exact ih h
    · rename_i hpa
      injection h with h1 h2
      subst h1
      simpa using hpa

theorem dropWhile_self_of_head {p : Char → Bool} {c : Char} {l : List Char}
    (h : p c = false) : (c :: l).dropWhile p = c :: l := by
  simp [List.dropWhile_cons, h]

theorem dropWhile_getLast {p : Char → Bool} {l : List Char}
    (h : l.dropWhile p ≠ []) : (l.dropWhile p).getLast? = l.getLast? := by
  induction l with
  | nil => simp at h
  | cons a as ih =>
    by_cases hp : p a = true
    · rw [List.dropWhile_cons, if_pos hp] at h ⊢
      have has : as ≠ [] := by
        intro he
        rw [he] at h
        simp at h
      rw [ih h]
      cases as with
      | nil => exact absurd rfl has
      | cons b bs => rw [List.getLast?_cons_cons]
    · rw [List.dropWhile_cons, if_neg hp]

theorem strip_ends {l : List Char} (h : strip l ≠ []) :
    ∃ c d, (strip l).head? = some c ∧ pyWS c = false ∧
      (strip l).getLast? = some d ∧ pyWS d = false := by
  have hB : strip l = ((l.dropWhile pyWS).reverse.dropWhile pyWS).reverse := rfl
  cases hA : l.dropWhile pyWS with
  | nil =>
    rw [hB, hA] at h
    simp at h
  | cons a0 t0 =>
    cases hBc : (l.dropWhile pyWS).reverse.dropWhile pyWS with
    | nil =>
      rw [hB, hBc] at h
      simp at h
    | cons b0 s0 =>
      have ha0 : pyWS a0 = false := dropWhile_head_false hA
      have hb0 : pyWS b0 = false := dropWhile_head_false hBc
      refine ⟨a0, b0, ?_, ha0, ?_, hb0⟩
      · rw [hB, List.head?_reverse]
        rw [dropWhile_getLast (by rw [hBc]; simp)]
        rw [List.getLast?_reverse, hA]
        rfl
      · rw [hB, List.getLast?_reverse, hBc]
        rfl

theorem strip_eq_self {l : List Char} {c d : Char}
    (hc : l.head? = some c) (hwc : pyWS c = false)
    (hd : l.getLast? = some d) (hwd : pyWS d = false) :
    strip l = l := by
  cases l with
  | nil => simp at hc
  | cons a t =>
    rw [List.head?_cons] at hc
    injection hc with hac
    subst hac
    have h1 : (a :: t).dropWhile pyWS = a :: t := dropWhile_self_of_head hwc
    cases hrev : (a :: t).reverse with
    | nil => simp at hrev
    | cons b bs =>
      have hb : b = d := by
        have h2 : (a :: t).reverse.head? = (a :: t).getLast? :=
          List.head?_reverse _
        rw [hrev, List.head?_cons, hd] at h2
        injection h2
      subst hb
      have h3 : (b :: bs).dropWhile pyWS = b :: bs := dropWhile_self_of_head hwd
      unfold strip
      rw [h1, hrev, h3, ← hrev, List.reverse_reverse]

theorem strip_idem (l : List Char) : strip (strip l) = strip l := by
  by_cases h : strip l = []
  · rw [h]
    rfl
  · rcases strip_ends h with ⟨c, d, hc, hwc, hd, hwd⟩
    exact strip_eq_self hc hwc hd hwd

theorem strip_cons_ws {c : Char} {l : List Char} (h : pyWS c = true) :
    strip (c :: l) = strip l := by
  unfold strip
  rw [List.dropWhile_cons, if_pos h]

theorem strip_app_ws {c : Char} {l : List Char} (h : pyWS c = true) :
    strip (l ++ [c]) = strip l := by
  unfold strip
  rw [List.dropWhile_append]
  by_cases he : (l.dropWhile pyWS).isEmpty
  · rw [if_pos he]
    have h1 : [c].dropWhile pyWS = [] := by simp [List.dropWhile_cons, h]
    have h2 : l.dropWhile pyWS = [] := by
      cases hh : l.dropWhile pyWS with
      | nil => rfl
      | cons x xs => rw [hh] at he; simp at he
    rw [h1, h2]
  · rw [if_neg he]
    have h2 : (l.dropWhile pyWS ++ [c]).reverse = c :: (l.dropWhile pyWS).reverse := by
      simp
    rw [h2, List.dropWhile_cons, if_pos h]

theorem strip_infix (l : List Char) : ∃ u w, l = u ++ strip l ++ w := by
  obtain ⟨u, hu⟩ := List.dropWhile_suffix (l := l) pyWS
  obtain ⟨u2, hu2⟩ := List.dropWhile_suffix (l := (l.dropWhile pyWS).reverse) pyWS
  refine ⟨u, u2.reverse, ?_⟩
  have hA : l.dropWhile pyWS = strip l ++ u2.reverse := by
    have h3 := congrArg List.reverse hu2
    rw [List.reverse_append, List.reverse_reverse] at h3
    unfold strip
    exact h3.symm
  calc l = u ++ l.dropWhile pyWS := hu.symm
    _ = u ++ (strip l ++ u2.reverse) := by rw [hA]
    _ = u ++ strip l ++ u2.reverse := by rw [List.append_assoc]

/-! ## Lemmas about the two fence searches and the extractor -/

theorem fenceJson_length : fenceJson.length = 7 := rfl

theorem mt_none {l : List Char} (h : splitOnFirst fenceJson l = none) :
    matchTagged l = none := by
  induction l with
  | nil => rfl
  | cons c t ih =>
    have hp : pfxOf fenceJson (c :: t) = false := sof_none_pfx h
    have ht := ih (sof_none_tail h)
    simp [matchTagged, hp, ht]

theorem mp_none {l : List Char} (h : splitOnFirst fence l = none) :
    matchPlain l = none := by
  induction l with
  | nil => rfl
  | cons c t ih =>
    have hp : pfxOf fence (c :: t) = false := sof_none_pfx h
    have ht := ih (sof_none_tail h)
    simp [matchPlain, hp, ht]

theorem mt_found {l a r b c2 : List Char}
    (h1 : splitOnFirst fenceJson l = some (a, r))
    (h2 : splitOnFirst fence r = some (b, c2)) :
    matchTagged l = some (strip b) := by
  induction l generalizing a with
  | nil =>
    simp only [splitOnFirst] at h1
    split at h1
    · rename_i hp
      simp [pfxOf, fenceJson, fence] at hp
    · simp at h1
  | cons c t ih =>
    simp only [splitOnFirst] at h1
    split at h1
    · rename_i hp
      injection h1 with h3
      injection h3 with ha hr
      rw [← hr, fenceJson_length] at h2
      have h2a : splitOnFirst fence (List.drop 6 t) = some (b, c2) := by
        simpa using h2
      simp [matchTagged, hp, h2a]
    · rename_i hp
      cases hm : splitOnFirst fenceJson t with
      | none => rw [hm] at h1; simp at h1
      | some pr =>
        obtain ⟨a1, r1⟩ := pr
        rw [hm] at h1
        simp only [Option.map_some'] at h1
        injection h1 with h3
        injection h3 with ha hr
        subst hr
        have hpf : pfxOf fenceJson (c :: t) = false := by
          simpa using hp
        simp only [matchTagged, hpf]
        simp only [Bool.false_eq_true, if_false]
        exact ih hm

theorem mp_found {l a r b c2 : List Char}
    (h1 : splitOnFirst fence l = some (a, r))
    (h2 : splitOnFirst fence r = some (b, c2)) :
    matchPlain l = some (strip b) := by
  induction l generalizing a with
  | nil =>
    simp only [splitOnFirst] at h1
    split at h1
    · rename_i hp
      simp [pfxOf, fence] at hp
    · simp at h1
  | cons c t ih =>
    simp only [splitOnFirst] at h1
    split at h1
    · rename_i hp
      injection h1 with h3
      injection h3 with ha hr
      have hlen : fence.length = 3 := rfl
      rw [← hr, hlen] at h2
      have h2a : splitOnFirst fence (List.drop 2 t) = some (b, c2) := by
        simpa using h2
      simp [matchPlain, hp, h2a]
    · rename_i hp
      cases hm : splitOnFirst fence t with
      | none => rw [hm] at h1; simp at h1
      | some pr =>
        obtain ⟨a1, r1⟩ := pr
        rw [hm] at h1
        simp only [Option.map_some'] at h1
        injection h1 with h3
        injection h3 with ha hr
        subst hr
        have hpf : pfxOf fence (c :: t) = false := by
          simpa using hp
        simp only [matchPlain, hpf]
        simp only [Bool.false_eq_true, if_false]
        exact ih hm

theorem mt_shape {l r : List Char} (h : matchTagged l = some r) :
    ∃ b, r = strip b ∧ splitOnFirst fence b = none := by
  induction l with
  | nil => simp [matchTagged] at h
  | cons c t ih =>
    by_cases hp : pfxOf fenceJson (c :: t) = true
    · simp only [matchTagged] at h
      rw [if_pos hp] at h
      cases hm : splitOnFirst fence ((c :: t).drop 7) with
      | none => rw [hm] at h; exact ih h
      | some pr =>
        obtain ⟨body, rest⟩ := pr
        rw [hm] at h
        injection h with h1
        exact ⟨body, h1.symm, sof_before_none fence_ne_nil hm⟩
    · simp only [matchTagged] at h
      rw [if_neg hp] at h
      exact ih h

theorem mp_shape {l r : List Char} (h : matchPlain l = some r) :
    ∃ b, r = strip b ∧ splitOnFirst fence b = none := by
  induction l with
  | nil => simp [matchPlain] at h
  | cons c t ih =>
    by_cases hp : pfxOf fence (c :: t) = true
    · simp only [matchPlain] at h
      rw [if_pos hp] at h
      cases hm : splitOnFirst fence ((c :: t).drop 3) with
      | none => rw [hm] at h; exact ih h
      | some pr =>
        obtain ⟨body, rest⟩ := pr
        rw [hm] at h
        injection h with h1
        exact ⟨body, h1.symm, sof_before_none fence_ne_nil hm⟩
    · simp only [matchPlain] at h
      rw [if_neg hp] at h
      exact ih h

theorem extract_eq_of_tagged {t r : List Char}
    (h : matchTagged (strip t) = some r) : extract_json t = r := by
  unfold extract_json
  rw [h]

theorem extract_eq_of_plain {t r : List Char}
    (h1 : matchTagged (strip t) = none) (h2 : matchPlain (strip t) = some r) :
    extract_json t = r := by
  unfold extract_json
  rw [h1, h2]

theorem extract_eq_of_none {t : List Char}
    (h1 : matchTagged (strip t) = none) (h2 : matchPlain (strip t) = none) :
    extract_json t = strip t := by
  unfold extract_json
  rw [h1, h2]

theorem extract_of_nofence {r : List Char}
    (hfree : splitOnFirst fence r = none) (hs : strip r = r) :
    extract_json r = r := by
  unfold extract_json
  rw [hs, mt_none (sof_fenceJson_none hfree), mp_none hfree]

/-! ## Behaviour of the extractor on fenced wrappings of fence-free text -/

/-- A payload wrapped in a json-tagged fenced block, the wrapping used by the
spec's first testable property. -/
def tagWrap (j : List Char) : List Char := fenceJson ++ '\n' :: (j ++ '\n' :: fence)

/-- A payload wrapped in a plain fenced block. -/
def plainWrap (j : List Char) : List Char := fence ++ '\n' :: (j ++ '\n' :: fence)

theorem pfxOf_cons_ne {a b : Char} {as bs : List Char} (h : a ≠ b) :
    pfxOf (a :: as) (b :: bs) = false := by
  simp [pfxOf, h]

theorem pfxOf_cons_same {a : Char} {as bs : List Char} :
    pfxOf (a :: as) (a :: bs) = pfxOf as bs := by
  simp [pfxOf]

theorem sof_cons_none {p : List Char} {c h0 : Char} {l : List Char}
    (hph : p.head? = some h0) (hc : c ≠ h0) (h : splitOnFirst p l = none) :
    splitOnFirst p (c :: l) = none := by
  simp only [splitOnFirst]
  have hp : pfxOf p (c :: l) = false := by
    cases p with
    | nil => simp at hph
    | cons x xs =>
      rw [List.head?_cons] at hph
      injection hph with hx
      subst hx
      exact pfxOf_cons_ne (fun he => hc he.symm)
  simp [hp, h]

theorem sof_append_nl_none {p l r : List Char}
    (hnl : '\n' ∉ p)
    (h1 : splitOnFirst p l = none) (h2 : splitOnFirst p ('\n' :: r) = none) :
    splitOnFirst p (l ++ '\n' :: r) = none := by
  induction l with
  | nil => simpa using h2
  | cons c t ih =>
    have ht : splitOnFirst p t = none := sof_none_tail h1
    simp only [List.cons_append, splitOnFirst]
    have hpf : pfxOf p (c :: (t ++ '\n' :: r)) = false := by
      by_contra hcc
      simp only [Bool.not_eq_false] at hcc
      have hx : pfxOf p ((c :: t) ++ '\n' :: r) = true := by simpa using hcc
      rcases pfxOf_append_cases hx with hl | ⟨hlp, hdr⟩
      · have hnp := sof_none_pfx h1
        simp [hl] at hnp
      · cases hdrop : p.drop (c :: t).length with
        | nil =>
          have hdec := pfxOf_decomp hlp
          rw [hdrop, List.append_nil] at hdec
          have hrefl : pfxOf p (c :: t) = true := by
            rw [← hdec]
            have hself := pfxOf_app_self p []
            simpa using hself
          have hnp := sof_none_pfx h1
          simp [hrefl] at hnp
        | cons d ds =>
          rw [hdrop] at hdr
          cases hr : '\n' :: r with
          | nil => simp at hr
          | cons e es =>
            rw [hr] at hdr
            injection hr with he hes
            subst he
            simp only [pfxOf, Bool.and_eq_true, decide_eq_true_eq] at hdr
            have hd : d = '\n' := hdr.1
            have hdp : d ∈ p := by
              have hmem : d ∈ p.drop (c :: t).length := by
                rw [hdrop]
                simp
              exact List.mem_of_mem_drop hmem
            rw [hd] at hdp
            exact hnl hdp
    simp [hpf, ih ht]

theorem sof_nlwrap_none {j : List Char} (hfree : splitOnFirst fence j = none) :
    splitOnFirst fence ('\n' :: (j ++ ['\n'])) = none := by
  have h2 := sof_fence_app_none (c := '\n') (by decide) hfree
  exact @sof_cons_none fence '\n' btick _ rfl (by decide) h2

theorem getLast?_nl_pad (j : List Char) :
    ('\n' :: (j ++ ['\n'])).getLast? = some '\n' := by
  have h : '\n' :: (j ++ ['\n']) = ('\n' :: j) ++ ['\n'] := by simp
  rw [h]
  exact List.getLast?_concat _

theorem tag_close {j : List Char} (hfree : splitOnFirst fence j = none) :
    splitOnFirst fence ('\n' :: (j ++ '\n' :: fence))
      = some ('\n' :: (j ++ ['\n']), []) := by
  have hlast : ('\n' :: (j ++ ['\n'])).getLast? ≠ some btick := by
    rw [getLast?_nl_pad]
    decide
  have h1 := @fence_close ('\n' :: (j ++ ['\n'])) [] (sof_nlwrap_none hfree) hlast
  have heq : ('\n' :: (j ++ ['\n'])) ++ fence ++ [] = '\n' :: (j ++ '\n' :: fence) := by
    simp
  rw [heq] at h1
  exact h1

theorem strip_nl_pad {j : List Char} (hs : strip j = j) :
    strip ('\n' :: (j ++ ['\n'])) = j := by
  rw [strip_cons_ws (by decide), strip_app_ws (by decide)]
  exact hs

theorem getLast?_tail_fence (X : List Char) :
    (X ++ '\n' :: fence).getLast? = some btick := by
  have h1 : X ++ '\n' :: fence = (X ++ '\n' :: [btick, btick]) ++ [btick] := by
    simp [fence]
  rw [h1]
  exact List.getLast?_concat _

theorem getLast?_tagWrap (j : List Char) : (tagWrap j).getLast? = some btick := by
  have h : tagWrap j = (fenceJson ++ '\n' :: j) ++ '\n' :: fence := by
    simp [tagWrap]
  rw [h]
  exact getLast?_tail_fence _

theorem getLast?_plainWrap (j : List Char) : (plainWrap j).getLast? = some btick := by
  have h : plainWrap j = (fence ++ '\n' :: j) ++ '\n' :: fence := by
    simp [plainWrap]
  rw [h]
  exact getLast?_tail_fence _

theorem strip_tagWrap_id (j : List Char) : strip (tagWrap j) = tagWrap j :=
  strip_eq_self (c := btick) (d := btick) rfl (by decide)
    (getLast?_tagWrap j) (by decide)

theorem strip_plainWrap_id (j : List Char) : strip (plainWrap j) = plainWrap j :=
  strip_eq_self (c := btick) (d := btick) rfl (by decide)
    (getLast?_plainWrap j) (by decide)

theorem matchTagged_tagWrap {j : List Char} (hfree : splitOnFirst fence j = none) :
    matchTagged (tagWrap j) = some (strip ('\n' :: (j ++ ['\n']))) := by
  have hw : tagWrap j = btick :: btick :: btick :: 'j' :: 's' :: 'o' :: 'n'
      :: ('\n' :: (j ++ '\n' :: fence)) := rfl
  rw [hw]
  simp only [matchTagged]
  have hp : pfxOf fenceJson (btick :: btick :: btick :: 'j' :: 's' :: 'o' :: 'n'
      :: ('\n' :: (j ++ '\n' :: fence))) = true := by
    have hfj : fenceJson = btick :: btick :: btick :: 'j' :: 's' :: 'o' :: 'n' :: [] := rfl
    rw [hfj, pfxOf_cons_same, pfxOf_cons_same, pfxOf_cons_same, pfxOf_cons_same,
      pfxOf_cons_same, pfxOf_cons_same, pfxOf_cons_same]
    rfl
  rw [if_pos hp]
  have hdrop : (btick :: btick :: btick :: 'j' :: 's' :: 'o' :: 'n'
      :: ('\n' :: (j ++ '\n' :: fence))).drop 7 = '\n' :: (j ++ '\n' :: fence) := rfl
  rw [hdrop, tag_close hfree]

theorem sof_fenceJson_plainWrap {j : List Char}
    (hfree : splitOnFirst fence j = none) :
    splitOnFirst fenceJson (plainWrap j) = none := by
  have hjf : splitOnFirst fenceJson j = none := sof_fenceJson_none hfree
  have htail : splitOnFirst fenceJson ('\n' :: fence) = none := by decide
  have hmid : splitOnFirst fenceJson (j ++ '\n' :: fence) = none :=
    sof_append_nl_none (by decide) hjf htail
  have hnl : splitOnFirst fenceJson ('\n' :: (j ++ '\n' :: fence)) = none :=
    @sof_cons_none fenceJson '\n' btick _ rfl (by decide) hmid
  have hfj : fenceJson = btick :: btick :: btick :: 'j' :: 's' :: 'o' :: 'n' :: [] := rfl
  have h0 : pfxOf fenceJson (btick :: btick :: btick
      :: ('\n' :: (j ++ '\n' :: fence))) = false := by
    rw [hfj, pfxOf_cons_same, pfxOf_cons_same, pfxOf_cons_same]
    exact pfxOf_cons_ne (by decide)
  have h1 : pfxOf fenceJson (btick :: btick :: ('\n' :: (j ++ '\n' :: fence))) = false := by
    rw [hfj, pfxOf_cons_same, pfxOf_cons_same]
    exact pfxOf_cons_ne (by decide)
  have h2 : pfxOf fenceJson (btick :: ('\n' :: (j ++ '\n' :: fence))) = false := by
    rw [hfj, pfxOf_cons_same]
    exact pfxOf_cons_ne (by decide)
  have hw : plainWrap j = btick :: btick :: btick :: ('\n' :: (j ++ '\n' :: fence)) := rfl
  have step : ∀ (c : Char) (L : List Char), pfxOf fenceJson (c :: L) = false →
      splitOnFirst fenceJson (c :: L)
        = Option.map (fun pr => (c :: pr.1, pr.2)) (splitOnFirst fenceJson L) := by
    intro c L hne
    simp only [splitOnFirst]
    rw [if_neg (by simp [hne])]
  rw [hw, step _ _ h0, step _ _ h1, step _ _ h2, hnl]
  rfl

theorem matchPlain_plainWrap {j : List Char} (hfree : splitOnFirst fence j = none) :
    matchPlain (plainWrap j) = some (strip ('\n' :: (j ++ ['\n']))) := by
  have hw : plainWrap j = btick :: btick :: btick :: ('\n' :: (j ++ '\n' :: fence)) := rfl
  rw [hw]
  simp only [matchPlain]
  have hp : pfxOf fence (btick :: btick :: btick
      :: ('\n' :: (j ++ '\n' :: fence))) = true := by
    have hf : fence = btick :: btick :: btick :: [] := rfl
    rw [hf, pfxOf_cons_same, pfxOf_cons_same, pfxOf_cons_same]
    rfl
  rw [if_pos hp]
  have hdrop : (btick :: btick :: btick :: ('\n' :: (j ++ '\n' :: fence))).drop 3
      = '\n' :: (j ++ '\n' :: fence) := rfl
  rw [hdrop, tag_close hfree]

theorem extract_tagWrap {j : List Char} (hfree : splitOnFirst fence j = none)
    (hs : strip j = j) : extract_json (tagWrap j) = j := by
  have hmt : matchTagged (strip (tagWrap j)) = some (strip ('\n' :: (j ++ ['\n']))) := by
    rw [strip_tagWrap_id]
    exact matchTagged_tagWrap hfree
  rw [extract_eq_of_tagged hmt, strip_nl_pad hs]

theorem extract_plainWrap {j : List Char} (hfree : splitOnFirst fence j = none)
    (hs : strip j = j) : extract_json (plainWrap j) = j := by
  have hmt : matchTagged (strip (plainWrap j)) = none := by
    rw [strip_plainWrap_id]
    exact mt_none (sof_fenceJson_plainWrap hfree)
  have hmp : matchPlain (strip (plainWrap j)) = some (strip ('\n' :: (j ++ ['\n']))) := by
    rw [strip_plainWrap_id]
    exact matchPlain_plainWrap hfree
  rw [extract_eq_of_plain hmt hmp, strip_nl_pad hs]


/-! ## Lemmas about the retry loop -/

theorem containsSub_of_decomp {p l x y : List Char} (h : l = x ++ p ++ y) :
    containsSub p l = true := by
  subst h
  unfold containsSub
  exact sof_of_decomp p x y

theorem runAttempts_cons {α : Type} (svc : Nat → LLMResp)
    (validate : Json → Except (List Char) α) (m : Int) (a : Nat)
    (rest : List Nat) (p : List Char) :
    runAttempts svc validate m (a :: rest) p =
      (match svc a with
       | LLMResp.fault code => (Outcome.svcFault code, [p])
       | LLMResp.ok raw =>
         match decodeValidate validate (extract_json raw) with
         | Except.ok v => (Outcome.value v, [p])
         | Except.error last_error =>
           if (a : Int) < m - 1 then
             ((runAttempts svc validate m rest (correctivePrompt p last_error)).1,
               p :: (runAttempts svc validate m rest (correctivePrompt p last_error)).2)
           else (Outcome.failure (failMsg m last_error), [p])) := rfl

theorem runAttempts_total {α : Type} (svc : Nat → LLMResp)
    (validate : Json → Except (List Char) α) (m : Int) :
    ∀ (n a : Nat) (p : List Char), n ≠ 0 → (m : Int) = a + n →
      (runAttempts svc validate m (List.range' a n) p).1 ≠ Outcome.retNone ∧
      (∀ v, (runAttempts svc validate m (List.range' a n) p).1 = Outcome.value v →
        ∃ k raw, svc k = LLMResp.ok raw ∧
          decodeValidate validate (extract_json raw) = Except.ok v) := by
  intro n
  induction n with
  | zero => intro a p h _; exact absurd rfl h
  | succ n ih =>
    intro a p _ hrel
    rw [List.range'_succ a n 1]
    cases hsvc : svc a with
    | fault code =>
      simp only [runAttempts_cons, hsvc]
      exact ⟨by simp, by intro v hv; simp at hv⟩
    | ok raw =>
      cases hdec : decodeValidate validate (extract_json raw) with
      | ok v0 =>
        simp only [runAttempts_cons, hsvc, hdec]
        refine ⟨by simp, ?_⟩
        intro v hv
        simp only [Outcome.value.injEq] at hv
        exact ⟨a, raw, hsvc, by rw [hdec, hv]⟩
      | error e =>
        simp only [runAttempts_cons, hsvc, hdec]
        by_cases hlt : (a : Int) < m - 1
        · rw [if_pos hlt]
          have hn : n ≠ 0 := by omega
          have ih2 := ih (a + 1) (correctivePrompt p e) hn (by push_cast at hrel ⊢; omega)
          refine ⟨by simpa using ih2.1, ?_⟩
          intro v hv
          exact ih2.2 v (by simpa using hv)
        · rw [if_neg hlt]
          exact ⟨by simp, by intro v hv; simp at hv⟩

theorem runAttempts_exhaust {α : Type} (svc : Nat → LLMResp)
    (validate : Json → Except (List Char) α) (m : Int)
    (raw err : Nat → List Char)
    (hfail : ∀ k : Nat, (k : Int) < m → svc k = LLMResp.ok (raw k) ∧
        decodeValidate validate (extract_json (raw k)) = Except.error (err k)) :
    ∀ (n a : Nat) (p : List Char), n ≠ 0 → (m : Int) = a + n →
      (runAttempts svc validate m (List.range' a n) p).1
          = Outcome.failure (failMsg m (err (m.toNat - 1))) ∧
      (runAttempts svc validate m (List.range' a n) p).2.length = n := by
  intro n
  induction n with
  | zero => intro a p h _; exact absurd rfl h
  | succ n ih =>
    intro a p _ hrel
    have hka : (a : Int) < m := by omega
    obtain ⟨hsvc, hdec⟩ := hfail a hka
    rw [List.range'_succ a n 1]
    simp only [runAttempts_cons, hsvc, hdec]
    by_cases hlt : (a : Int) < m - 1
    · rw [if_pos hlt]
      have hn : n ≠ 0 := by omega
      have ih2 := ih (a + 1) (correctivePrompt p (err a)) hn (by push_cast at hrel ⊢; omega)
      refine ⟨by simpa using ih2.1, ?_⟩
      have hl := ih2.2
      simp only [List.length_cons, hl]
    · rw [if_neg hlt]
      have hn0 : n = 0 := by omega
      have han : a = m.toNat - 1 := by omega
      subst hn0
      rw [← han]
      exact ⟨rfl, rfl⟩

theorem runAttempts_fault {α : Type} (svc : Nat → LLMResp)
    (validate : Json → Except (List Char) α) (m : Int) (k code : Nat)
    (raw err : Nat → List Char)
    (hok : ∀ i, i < k → svc i = LLMResp.ok (raw i) ∧
        decodeValidate validate (extract_json (raw i)) = Except.error (err i))
    (hf : svc k = LLMResp.fault code) :
    ∀ (n a : Nat) (p : List Char), a ≤ k → (k : Int) < m → (m : Int) = a + n →
      (runAttempts svc validate m (List.range' a n) p).1 = Outcome.svcFault code ∧
      (runAttempts svc validate m (List.range' a n) p).2.length = k - a + 1 := by
  intro n
  induction n with
  | zero => intro a p hak hkm hrel; omega
  | succ n ih =>
    intro a p hak hkm hrel
    rw [List.range'_succ a n 1]
    by_cases hek : a = k
    · subst hek
      refine ⟨?_, ?_⟩ <;> simp [runAttempts_cons, hf]
    · have hlt2 : a < k := by omega
      obtain ⟨hsvc, hdec⟩ := hok a hlt2
      simp only [runAttempts_cons, hsvc, hdec]
      have hcond : (a : Int) < m - 1 := by omega
      rw [if_pos hcond]
      have ih2 := ih (a + 1) (correctivePrompt p (err a)) (by omega) hkm
        (by push_cast at hrel ⊢; omega)
      refine ⟨by simpa using ih2.1, ?_⟩
      have hl := ih2.2
      simp only [List.length_cons, hl]
      omega

theorem runAttempts_head {α : Type} (svc : Nat → LLMResp)
    (validate : Json → Except (List Char) α) (m : Int) (a : Nat)
    (rest : List Nat) (p : List Char) :
    ∃ tl, (runAttempts svc validate m (a :: rest) p).2 = p :: tl := by
  cases hsvc : svc a with
  | fault code => exact ⟨[], by simp [runAttempts_cons, hsvc]⟩
  | ok raw =>
    cases hdec : decodeValidate validate (extract_json raw) with
    | ok v => exact ⟨[], by simp [runAttempts_cons, hsvc, hdec]⟩
    | error e =>
      by_cases hlt : (a : Int) < m - 1
      · exact ⟨(runAttempts svc validate m rest (correctivePrompt p e)).2,
          by simp [runAttempts_cons, hsvc, hdec, hlt]⟩
      · exact ⟨[], by simp [runAttempts_cons, hsvc, hdec, hlt]⟩

theorem runAttempts_chain {α : Type} (svc : Nat → LLMResp)
    (validate : Json → Except (List Char) α) (m : Int) :
    ∀ (atts : List Nat) (p : List Char) (k : Nat),
      k + 1 < (runAttempts svc validate m atts p).2.length →
      ∃ e, (runAttempts svc validate m atts p).2.getD (k + 1) []
          = correctivePrompt ((runAttempts svc validate m atts p).2.getD k []) e := by
  intro atts
  induction atts with
  | nil => intro p k h; simp [runAttempts] at h
  | cons a rest ih =>
    intro p k h
    cases hsvc : svc a with
    | fault code =>
      simp only [runAttempts_cons, hsvc] at h
      simp at h
    | ok raw =>
      cases hdec : decodeValidate validate (extract_json raw) with
      | ok v =>
        simp only [runAttempts_cons, hsvc, hdec] at h
        simp at h
      | error e0 =>
        by_cases hlt : (a : Int) < m - 1
        · simp only [runAttempts_cons, hsvc, hdec, if_pos hlt] at h ⊢
          cases k with
          | zero =>
            cases rest with
            | nil =>
              simp [runAttempts] at h
            | cons a1 rest1 =>
              obtain ⟨tl, htl⟩ := runAttempts_head svc validate m a1 rest1
                (correctivePrompt p e0)
              refine ⟨e0, ?_⟩
              simp [htl]
          | succ k1 =>
            simp only [List.length_cons] at h
            have hlen : k1 + 1 < (runAttempts svc validate m rest
                (correctivePrompt p e0)).2.length := by omega
            obtain ⟨e, he⟩ := ih (correctivePrompt p e0) k1 hlen
            refine ⟨e, ?_⟩
            simpa using he
        · simp only [runAttempts_cons, hsvc, hdec, if_neg hlt] at h
          simp at h

theorem ask_first_success {α : Type} (svc : Nat → LLMResp)
    (validate : Json → Except (List Char) α) (prompt r : List Char) (m : Int)
    (v : α) (hm : 1 ≤ m) (h0 : svc 0 = LLMResp.ok r)
    (hd : decodeValidate validate (extract_json r) = Except.ok v) :
    ask_llm_for_json svc validate prompt m = (Outcome.value v, [prompt]) := by
  unfold ask_llm_for_json
  obtain ⟨k, hk⟩ : ∃ k, m.toNat = k + 1 := ⟨m.toNat - 1, by omega⟩
  rw [List.range_eq_range', hk, List.range'_succ 0 k 1]
  simp only [runAttempts_cons, h0, hd]

/-! ## The claims -/

/-- C1: with max_retries at least 1, `ask_llm_for_json` never falls off the
loop: its outcome is a validated value, the exhaustion ValueError, or a
propagated service fault — never the implicit None; and any returned value
was produced by parsing and schema-validating a completion-service
response. -/
theorem C1_terminal_or_validated {α : Type} (svc : Nat → LLMResp)
    (validate : Json → Except (List Char) α) (prompt : List Char) (m : Int)
    (hm : 1 ≤ m) :
    (ask_llm_for_json svc validate prompt m).1 ≠ Outcome.retNone ∧
    ∀ v, (ask_llm_for_json svc validate prompt m).1 = Outcome.value v →
      ∃ k raw, svc k = LLMResp.ok raw ∧
        decodeValidate validate (extract_json raw) = Except.ok v := by
  unfold ask_llm_for_json
  rw [List.range_eq_range']
  exact runAttempts_total svc validate m m.toNat 0 prompt (by omega) (by omega)

theorem C1_witness :
    (1 : Int) ≤ 1 ∧
    (ask_llm_for_json (fun _ => LLMResp.ok "\x7b\"answer\": \"hi\"\x7d".data)
        validateQAResponse "P".data 1).1 ≠ Outcome.retNone :=
  ⟨le_refl 1,
   (C1_terminal_or_validated (fun _ => LLMResp.ok "\x7b\"answer\": \"hi\"\x7d".data)
     validateQAResponse "P".data 1 (le_refl 1)).1⟩

/-- C2 (amended): the corrective suffix is appended to the current working
prompt — the prompt of the immediately preceding attempt — so corrective
suffixes compound across attempts instead of always attaching to the
original prompt: every prompt sent after the first equals `correctivePrompt`
applied to the previous prompt sent and the error just recorded. -/
theorem C2_amended_compounds {α : Type} (svc : Nat → LLMResp)
    (validate : Json → Except (List Char) α) (prompt : List Char) (m : Int)
    (k : Nat)
    (hk : k + 1 < (ask_llm_for_json svc validate prompt m).2.length) :
    ∃ e, (ask_llm_for_json svc validate prompt m).2.getD (k + 1) []
        = correctivePrompt
            ((ask_llm_for_json svc validate prompt m).2.getD k []) e := by
  unfold ask_llm_for_json at hk ⊢
  exact runAttempts_chain svc validate m _ prompt k hk

/-- C2 counterexample: with three failing attempts the prompt sent on the
third call contains the corrective marker twice — the suffixes compound —
refuting that the prompt of attempt k contains exactly one corrective
suffix. -/
theorem C2_counterexample :
    countOccur "Your previous response was invalid:".data
      ((ask_llm_for_json (fun _ => LLMResp.ok "x".data) validateQAResponse
          "P".data 3).2.getD 2 []) = 2 := by
  decide

theorem C2_witness :
    ∃ e, (ask_llm_for_json (fun _ => LLMResp.ok "x".data) validateQAResponse
        "P".data 2).2.getD 1 []
      = correctivePrompt ((ask_llm_for_json (fun _ => LLMResp.ok "x".data)
          validateQAResponse "P".data 2).2.getD 0 []) e :=
  C2_amended_compounds (fun _ => LLMResp.ok "x".data) validateQAResponse
    "P".data 2 0 (by decide)

/-- C3 counterexample: this bare response is valid JSON conforming to
QAResponse — it parses and validates as given — yet because its answer
string contains two fence markers the extractor truncates it, the first
attempt fails, and the loop does not make exactly one call. -/
theorem C3_counterexample :
    decodeValidate validateQAResponse "\x7b\"answer\": \"``` a ```\"\x7d".data
      = Except.ok ⟨"``` a ```".data, []⟩ ∧
    ¬ ((ask_llm_for_json
        (fun _ => LLMResp.ok "\x7b\"answer\": \"``` a ```\"\x7d".data)
        validateQAResponse "P".data 3).2.length = 1) := by
  constructor
  · rfl
  · decide

/-- C3 (amended): for every payload that contains no fence marker, is
already stripped, and decodes and validates to a typed value, a response
consisting of that payload bare, wrapped in a json-tagged fenced block, or
wrapped in a plain fenced block makes the loop return the typed value on the
first attempt with exactly one completion-service call. -/
theorem C3_amended_first_attempt {α : Type} (svc : Nat → LLMResp)
    (validate : Json → Except (List Char) α) (prompt j : List Char)
    (m : Int) (v : α)
    (hfree : splitOnFirst fence j = none) (hs : strip j = j)
    (hv : decodeValidate validate j = Except.ok v) (hm : 1 ≤ m) :
    (svc 0 = LLMResp.ok j →
      ask_llm_for_json svc validate prompt m = (Outcome.value v, [prompt])) ∧
    (svc 0 = LLMResp.ok (tagWrap j) →
      ask_llm_for_json svc validate prompt m = (Outcome.value v, [prompt])) ∧
    (svc 0 = LLMResp.ok (plainWrap j) →
      ask_llm_for_json svc validate prompt m = (Outcome.value v, [prompt])) := by
  refine ⟨fun h0 => ?_, fun h0 => ?_, fun h0 => ?_⟩
  · exact ask_first_success svc validate prompt j m v hm h0
      (by rw [extract_of_nofence hfree hs]; exact hv)
  · exact ask_first_success svc validate prompt (tagWrap j) m v hm h0
      (by rw [extract_tagWrap hfree hs]; exact hv)
  · exact ask_first_success svc validate prompt (plainWrap j) m v hm h0
      (by rw [extract_plainWrap hfree hs]; exact hv)

theorem C3_witness :
    ask_llm_for_json
        (fun _ => LLMResp.ok (tagWrap "\x7b\"answer\": \"hi\"\x7d".data))
        validateQAResponse "P".data 1
      = (Outcome.value ⟨"hi".data, []⟩, ["P".data]) :=
  (C3_amended_first_attempt
      (fun _ => LLMResp.ok (tagWrap "\x7b\"answer\": \"hi\"\x7d".data))
      validateQAResponse "P".data "\x7b\"answer\": \"hi\"\x7d".data 1
      ⟨"hi".data, []⟩ (by decide) (by decide) rfl (le_refl 1)).2.1 rfl

/-- C4: when every one of the max_retries responses fails to parse or
validate (max_retries at least 1), the loop raises the exhaustion ValueError
whose message carries the attempt count max_retries and the error recorded
on the final attempt, after exactly max_retries completion-service calls. -/
theorem C4_exhaustion {α : Type} (svc : Nat → LLMResp)
    (validate : Json → Except (List Char) α) (prompt : List Char) (m : Int)
    (raw err : Nat → List Char) (hm : 1 ≤ m)
    (hfail : ∀ k : Nat, (k : Int) < m → svc k = LLMResp.ok (raw k) ∧
        decodeValidate validate (extract_json (raw k)) = Except.error (err k)) :
    (ask_llm_for_json svc validate prompt m).1
        = Outcome.failure (failMsg m (err (m.toNat - 1))) ∧
    (ask_llm_for_json svc validate prompt m).2.length = m.toNat ∧
    containsSub (intChars m) (failMsg m (err (m.toNat - 1))) = true ∧
    containsSub (err (m.toNat - 1)) (failMsg m (err (m.toNat - 1))) = true := by
  have h1 := runAttempts_exhaust svc validate m raw err hfail m.toNat 0 prompt
    (by omega) (by omega)
  refine ⟨?_, ?_, ?_, ?_⟩
  · unfold ask_llm_for_json
    rw [List.range_eq_range']
    exact h1.1
  · unfold ask_llm_for_json
    rw [List.range_eq_range']
    exact h1.2
  · exact containsSub_of_decomp (x := "Failed after ".data)
      (y := " attempts. Last error: ".data ++ err (m.toNat - 1))
      (by simp [failMsg, List.append_assoc])
  · exact containsSub_of_decomp
      (x := "Failed after ".data ++ intChars m ++ " attempts. Last error: ".data)
      (y := []) (by simp [failMsg, List.append_assoc])

theorem C4_witness :
    (ask_llm_for_json (fun _ => LLMResp.ok "x".data) validateQAResponse
        "P".data 3).2.length = 3 :=
  (C4_exhaustion (fun _ => LLMResp.ok "x".data) validateQAResponse "P".data 3
    (fun _ => "x".data)
    (fun _ => "JSON decode error: ".data ++ "Expecting value".data)
    (by norm_num)
    (fun k hk => ⟨rfl, rfl⟩)).2.1

/-- C5: when the first response is malformed JSON and the second is valid
and conforming, the loop (max_retries at least 2) returns the typed value
after exactly 2 completion-service calls, and the prompt of the second call
contains the recorded parse-error text of the first attempt. -/
theorem C5_parse_retry {α : Type} (svc : Nat → LLMResp)
    (validate : Json → Except (List Char) α) (prompt : List Char) (m : Int)
    (r0 r1 pe : List Char) (v : α) (hm : 2 ≤ m)
    (h0 : svc 0 = LLMResp.ok r0)
    (hp0 : jsonLoads (extract_json r0) = Except.error pe)
    (h1 : svc 1 = LLMResp.ok r1)
    (hv : decodeValidate validate (extract_json r1) = Except.ok v) :
    (ask_llm_for_json svc validate prompt m).1 = Outcome.value v ∧
    (ask_llm_for_json svc validate prompt m).2.length = 2 ∧
    containsSub ("JSON decode error: ".data ++ pe)
      ((ask_llm_for_json svc validate prompt m).2.getD 1 []) = true := by
  have hd0 : decodeValidate validate (extract_json r0)
      = Except.error ("JSON decode error: ".data ++ pe) := by
    unfold decodeValidate
    rw [hp0]
  unfold ask_llm_for_json
  obtain ⟨k, hk⟩ : ∃ k, m.toNat = k + 2 := ⟨m.toNat - 2, by omega⟩
  rw [List.range_eq_range', hk, show k + 2 = k + 1 + 1 from rfl,
    List.range'_succ 0 (k + 1) 1, List.range'_succ 1 k 1]
  have hrun : runAttempts svc validate m (0 :: 1 :: List.range' 2 k 1) prompt
      = (Outcome.value v,
         [prompt, correctivePrompt prompt ("JSON decode error: ".data ++ pe)]) := by
    simp only [runAttempts_cons, h0, hd0]
    rw [if_pos (by omega : ((0 : Nat) : Int) < m - 1)]
    simp only [runAttempts_cons, h1, hv]
  rw [hrun]
  refine ⟨rfl, rfl, ?_⟩
  exact containsSub_of_decomp
    (x := prompt ++ "\n            ---\n            Your previous response was invalid:\n            ".data)
    (y := "\n\n            Please fix the JSON and return ONLY valid JSON matching the schema. No other text.\n            ".data)
    (by simp [correctivePrompt, List.append_assoc])

theorem C5_witness :
    (ask_llm_for_json
        (fun n => if n = 0 then LLMResp.ok "oops".data
          else LLMResp.ok "\x7b\"answer\": \"hi\"\x7d".data)
        validateQAResponse "P".data 3).2.length = 2 :=
  (C5_parse_retry
      (fun n => if n = 0 then LLMResp.ok "oops".data
        else LLMResp.ok "\x7b\"answer\": \"hi\"\x7d".data)
      validateQAResponse "P".data 3 "oops".data
      "\x7b\"answer\": \"hi\"\x7d".data "Expecting value".data ⟨"hi".data, []⟩
      (by norm_num) rfl rfl rfl rfl).2.1

/-- C6: a fault raised by the completion-service call on attempt k (all
earlier responses having failed decode or validation) propagates to the
caller immediately: the outcome is that fault and exactly k+1 calls were
made, with no further retries. -/
theorem C6_fault_propagates {α : Type} (svc : Nat → LLMResp)
    (validate : Json → Except (List Char) α) (prompt : List Char) (m : Int)
    (k code : Nat) (raw err : Nat → List Char)
    (hok : ∀ i, i < k → svc i = LLMResp.ok (raw i) ∧
        decodeValidate validate (extract_json (raw i)) = Except.error (err i))
    (hf : svc k = LLMResp.fault code) (hk : (k : Int) < m) :
    (ask_llm_for_json svc validate prompt m).1 = Outcome.svcFault code ∧
    (ask_llm_for_json svc validate prompt m).2.length = k + 1 := by
  have h1 := runAttempts_fault svc validate m k code raw err hok hf m.toNat 0
    prompt (by omega) hk (by omega)
  unfold ask_llm_for_json
  rw [List.range_eq_range']
  refine ⟨h1.1, ?_⟩
  rw [h1.2]
  omega

theorem C6_witness :
    (ask_llm_for_json
        (fun n => if n = 0 then LLMResp.ok "x".data else LLMResp.fault 7)
        validateQAResponse "P".data 3).1 = Outcome.svcFault 7 :=
  (C6_fault_propagates
      (fun n => if n = 0 then LLMResp.ok "x".data else LLMResp.fault 7)
      validateQAResponse "P".data 3 1 7 (fun _ => "x".data)
      (fun _ => "JSON decode error: ".data ++ "Expecting value".data)
      (by
        intro i hi
        have hi0 : i = 0 := by omega
        subst hi0
        exact ⟨rfl, rfl⟩)
      rfl (by norm_num)).1

/-- C7: a parsed object payload missing the required answer field fails
schema validation even when a well-formed citations field is present; the
diagnostic names the missing answer field, and whenever such a payload is
what a response parses to, the loop records it as a schema-validation
error. -/
theorem C7_missing_answer (fs : List (List Char × Json)) (cj : Json)
    (cs : List Citation)
    (hmiss : lookupLast keyAnswer fs = none)
    (hcit : lookupLast keyCitations fs = some cj)
    (hwf : validateCitationList cj = Except.ok cs) :
    validateQAResponse (Json.jobj fs)
        = Except.error (keyAnswer ++ ": Field required".data) ∧
    containsSub keyAnswer (keyAnswer ++ ": Field required".data) = true ∧
    ∀ s, jsonLoads s = Except.ok (Json.jobj fs) →
      decodeValidate validateQAResponse s
        = Except.error ("Schema validation error: ".data
            ++ (keyAnswer ++ ": Field required".data)) := by
  have hval : validateQAResponse (Json.jobj fs)
      = Except.error (keyAnswer ++ ": Field required".data) := by
    simp only [validateQAResponse, hmiss, hcit, hwf]
  refine ⟨hval, ?_, ?_⟩
  · exact containsSub_of_decomp (x := []) (y := ": Field required".data)
      (by simp)
  · intro s hs
    simp only [decodeValidate, hs, hval]

theorem C7_witness :
    validateQAResponse (Json.jobj [(keyCitations,
        Json.jarr [Json.jobj [(keySourceId, Json.jstr "d1".data),
          (keyQuote, Json.jstr "q1".data)]])])
      = Except.error (keyAnswer ++ ": Field required".data) :=
  (C7_missing_answer
    [(keyCitations, Json.jarr [Json.jobj [(keySourceId, Json.jstr "d1".data),
      (keyQuote, Json.jstr "q1".data)]])]
    (Json.jarr [Json.jobj [(keySourceId, Json.jstr "d1".data),
      (keyQuote, Json.jstr "q1".data)]])
    [⟨"d1".data, "q1".data⟩] rfl rfl rfl).1

/-- C8: when the stripped text splits at its first json-tagged fence into
`a ++ fenceJson ++ r` and the first closing fence splits `r` into
`b ++ fence ++ c2`, the extractor returns the trimmed interior `strip b` of
that first tagged block — regardless of any plain fenced block occurring
earlier inside `a`. -/
theorem C8_tagged_precedence {t a r b c2 : List Char}
    (h1 : splitOnFirst fenceJson (strip t) = some (a, r))
    (h2 : splitOnFirst fence r = some (b, c2)) :
    extract_json t = strip b :=
  extract_eq_of_tagged (mt_found h1 h2)

theorem C8_witness :
    splitOnFirst fenceJson (strip "``` p ```\n```json\n q \n```".data)
        = some ("``` p ```\n".data, "\n q \n```".data) ∧
    splitOnFirst fence "\n q \n```".data = some ("\n q \n".data, []) ∧
    extract_json "``` p ```\n```json\n q \n```".data = strip "\n q \n".data :=
  ⟨by decide, by decide,
   @C8_tagged_precedence "``` p ```\n```json\n q \n```".data
     "``` p ```\n".data "\n q \n```".data "\n q \n".data []
     (by decide) (by decide)⟩

/-- C9: the extractor is idempotent: for every input, applying
`_extract_json` to its own output returns that output unchanged. -/
theorem C9_extract_idempotent (t : List Char) :
    extract_json (extract_json t) = extract_json t := by
  cases hmt : matchTagged (strip t) with
  | some r =>
    have he : extract_json t = r := extract_eq_of_tagged hmt
    rcases mt_shape hmt with ⟨b, hb, hfree⟩
    have hrfree : splitOnFirst fence r = none := by
      rcases strip_infix b with ⟨u, w, hbw⟩
      have hb2 : b = u ++ r ++ w := by rw [hb]; exact hbw
      exact sof_none_of_infix hfree hb2
    have hsr : strip r = r := by
      rw [hb]
      exact strip_idem b
    rw [he, extract_of_nofence hrfree hsr]
  | none =>
    cases hmp : matchPlain (strip t) with
    | some r =>
      have he : extract_json t = r := extract_eq_of_plain hmt hmp
      rcases mp_shape hmp with ⟨b, hb, hfree⟩
      have hrfree : splitOnFirst fence r = none := by
        rcases strip_infix b with ⟨u, w, hbw⟩
        have hb2 : b = u ++ r ++ w := by rw [hb]; exact hbw
        exact sof_none_of_infix hfree hb2
      have hsr : strip r = r := by
        rw [hb]
        exact strip_idem b
      rw [he, extract_of_nofence hrfree hsr]
    | none =>
      have he : extract_json t = strip t := extract_eq_of_none hmt hmp
      rw [he]
      unfold extract_json
      rw [strip_idem t, hmt, hmp]

/-- C10: with max_retries at most 0 the for-loop body never runs: no
completion-service call is made, no error is raised, and the function
returns the implicit None — a value that is neither a validated result nor a
terminal failure. -/
theorem C10_nonpositive_none {α : Type} (svc : Nat → LLMResp)
    (validate : Json → Except (List Char) α) (prompt : List Char) (m : Int)
    (hm : m ≤ 0) :
    ask_llm_for_json svc validate prompt m = (Outcome.retNone, []) := by
  unfold ask_llm_for_json
  have h0 : m.toNat = 0 := by omega
  rw [h0]
  rfl

theorem C10_witness :
    ask_llm_for_json (fun _ => LLMResp.ok "x".data) validateQAResponse
        "P".data 0 = (Outcome.retNone, []) :=
  C10_nonpositive_none (fun _ => LLMResp.ok "x".data) validateQAResponse
    "P".data 0 (le_refl 0)
